import Mathlib

/-!
Verification development for the ha-mcp-intelligence agent subsystem.

Shallow embedding, translated from the TypeScript sources:
* `src/agent/ulid.ts` — ULID generator (identifier generation);
* `src/agent/step-logger.ts` — NDJSON write-ahead step logger;
* `src/agent/session-manager.ts` — session CRUD with optimistic concurrency;
* `src/agent/continuation-runner.ts` — continuation state machine;
* `src/agent/tool-registry.ts` — tool invocation boundary;
* `src/agent/artifact-store.ts` — artifact storage;
* `src/agent/file-layout.ts` — persistence layout.

State is passed explicitly; JavaScript `Map`s become association lists,
`throw` becomes `Except`/paired error results, `Math.random()` becomes an
explicit oracle argument, and `Date.now()` becomes an explicit `now`
parameter.
-/

namespace HaMcp

/-! ## Association-list helpers (model of JS `Map`) -/

def assocGet {α β : Type} [DecidableEq α] (l : List (α × β)) (k : α) : Option β :=
  match l.find? (fun p => p.1 = k) with
  | some p => some p.2
  | none => none

def assocSet {α β : Type} [DecidableEq α] (l : List (α × β)) (k : α) (v : β) :
    List (α × β) :=
  match l with
  | [] => [(k, v)]
  | (k', v') :: rest =>
    if k' = k then (k, v) :: rest else (k', v') :: assocSet rest k v

def assocDel {α β : Type} [DecidableEq α] (l : List (α × β)) (k : α) : List (α × β) :=
  l.filter (fun p => ¬ p.1 = k)

theorem assocGet_set_self {α β : Type} [DecidableEq α] (l : List (α × β)) (k : α) (v : β) :
    assocGet (assocSet l k v) k = some v := by
  induction l with
  | nil => simp [assocGet, assocSet, List.find?]
  | cons hd tl ih =>
    by_cases h : hd.1 = k
    · simp [assocSet, assocGet, List.find?, h]
    · simp only [assocSet]
      cases hd with
      | mk k' v' =>
        simp only at h
        simp [h, assocGet, List.find?]
        simpa [assocGet] using ih

theorem assocGet_set_ne {α β : Type} [DecidableEq α] (l : List (α × β)) (k k' : α) (v : β)
    (h : k' ≠ k) : assocGet (assocSet l k v) k' = assocGet l k' := by
  induction l with
  | nil => simp [assocGet, assocSet, List.find?, Ne.symm h]
  | cons hd tl ih =>
    by_cases hk : hd.1 = k
    · cases hd with
      | mk a b =>
        simp only at hk
        subst hk
        simp [assocSet, assocGet, List.find?, Ne.symm h]
    · cases hd with
      | mk a b =>
        simp only at hk
        simp only [assocSet, if_neg hk]
        by_cases ha : a = k'
        · simp [assocGet, List.find?, ha]
        · simp [assocGet, List.find?, ha] at ih ⊢
          exact ih

/-! ## ULID generator (`src/agent/ulid.ts`)

Identifiers are modelled as `List Char`.  The mutable module state
(`lastTime`, `lastRandom`) is an explicit `UlidState`.  `Math.random()` is an
explicit `fresh` oracle argument supplying what `generateRandom()` would have
produced. -/

def ENCODING : List Char :=
  ['0','1','2','3','4','5','6','7','8','9','A','B','C','D','E','F','G','H',
   'J','K','M','N','P','Q','R','S','T','V','W','X','Y','Z']

def ENCODING_LEN : Nat := 32

def TIME_MAX : Nat := 2 ^ 48 - 1

def TIME_LEN : Nat := 10

def RANDOM_LEN : Nat := 16

/-- Digit list (most-significant first) produced by the `encodeTime` loop:
each iteration prepends `now % 32` and divides `now` by 32. -/
def encodeTimeDigits : Nat → Nat → List Nat
  | _, 0 => []
  | now, len + 1 => encodeTimeDigits (now / 32) len ++ [now % 32]

/-- Character `ENCODING[d]` for a digit value `d < 32`. -/
def encChar (d : Nat) : Char := ENCODING.getD d '0'

def encodeTime (now len : Nat) : List Char :=
  (encodeTimeDigits now len).map encChar

/-- Model of `encodeRandom`: maps each stored random digit through the alphabet.
The generator maintains the invariant that `random` has 16 entries. -/
def encodeRandom (random : List Nat) : List Char :=
  random.map encChar

/-- The carry loop of `incrementRandom`: walking from the least-significant
end, a digit below 31 is bumped and every digit passed over is zeroed;
`none` means every digit was 31 (or the list was empty) and the JS code
falls back to `generateRandom()`. -/
def incRandomAux : List Nat → Option (List Nat)
  | [] => none
  | d :: ds =>
    match incRandomAux ds with
    | some ds' => some (d :: ds')
    | none => if d < 31 then some ((d + 1) :: List.replicate ds.length 0) else none

def incrementRandom (fresh : List Nat) (random : List Nat) : List Nat :=
  (incRandomAux random).getD fresh

structure UlidState where
  lastTime : Nat
  lastRandom : List Nat
deriving DecidableEq, Repr

/-- The initial module state of `ulid.ts` (`lastTime = 0`, `lastRandom = []`). -/
def initUlidState : UlidState := ⟨0, []⟩

/-- One call of `ulid(seedTime)`.  `fresh` stands for the digits
`generateRandom()` would return if consulted on this call. -/
def ulidStep (fresh : List Nat) (st : UlidState) (now : Nat) :
    Except String (List Char × UlidState) :=
  if now > TIME_MAX then
    .error "Cannot generate ULID for timestamp beyond TIME_MAX"
  else if now = st.lastTime then
    let r := incrementRandom fresh st.lastRandom
    .ok (encodeTime now TIME_LEN ++ encodeRandom r, ⟨now, r⟩)
  else
    .ok (encodeTime now TIME_LEN ++ encodeRandom fresh, ⟨now, fresh⟩)

/-- The per-character loop of `decodeTime`: `indexOf` failure (index = 32,
i.e. not found) raises. -/
def decodeTimeAux : List Char → Nat → Except String Nat
  | [], acc => .ok acc
  | c :: cs, acc =>
    let idx := ENCODING.indexOf c
    if idx < 32 then decodeTimeAux cs (acc * 32 + idx)
    else .error "Invalid ULID character"

def decodeTime (id : List Char) : Except String Nat :=
  if id.length ≠ TIME_LEN + RANDOM_LEN then .error "Invalid ULID length"
  else decodeTimeAux (id.take TIME_LEN) 0

def isValidUlid (id : List Char) : Bool :=
  id.length == TIME_LEN + RANDOM_LEN && id.all (fun c => ENCODING.contains c)

/-- Well-formed random component: what `generateRandom()` guarantees. -/
def WFrand (r : List Nat) : Prop := r.length = 16 ∧ ∀ d ∈ r, d < 32

instance : DecidablePred WFrand := fun r => by
  unfold WFrand; infer_instance

/-! ### Base-32 positional arithmetic -/

/-- Fold a digit list (most-significant first) back into a number, base `b`. -/
def decFold (b : Nat) : List Nat → Nat → Nat
  | [], acc => acc
  | d :: ds, acc => decFold b ds (acc * b + d)

theorem decFold_append_single (b : Nat) (xs : List Nat) (d acc : Nat) :
    decFold b (xs ++ [d]) acc = decFold b xs acc * b + d := by
  induction xs generalizing acc with
  | nil => simp [decFold]
  | cons x xs ih => simp [decFold, ih]

theorem decFold_acc (b : Nat) (ds : List Nat) (acc : Nat) :
    decFold b ds acc = acc * b ^ ds.length + decFold b ds 0 := by
  induction ds generalizing acc with
  | nil => simp [decFold]
  | cons d ds ih =>
    simp only [decFold, List.length_cons]
    rw [ih (acc * b + d), ih (0 * b + d)]
    ring

theorem decFold_lt (b : Nat) (hb : 0 < b) (ds : List Nat) (hd : ∀ d ∈ ds, d < b) :
    decFold b ds 0 < b ^ ds.length := by
  induction ds with
  | nil => simpa [decFold] using Nat.pos_pow_of_pos 0 hb
  | cons d ds ih =>
    have hdlt : d < b := hd d (by simp)
    have hrest : ∀ x ∈ ds, x < b := fun x hx => hd x (by simp [hx])
    simp only [decFold, List.length_cons]
    rw [decFold_acc]
    have h1 : decFold b ds 0 < b ^ ds.length := ih hrest
    calc (0 * b + d) * b ^ ds.length + decFold b ds 0
        < (0 * b + d) * b ^ ds.length + b ^ ds.length := by omega
      _ = (d + 1) * b ^ ds.length := by ring
      _ ≤ b * b ^ ds.length := Nat.mul_le_mul_right _ (by omega)
      _ = b ^ (ds.length + 1) := by ring

theorem encodeTimeDigits_length (t len : Nat) :
    (encodeTimeDigits t len).length = len := by
  induction len generalizing t with
  | zero => simp [encodeTimeDigits]
  | succ n ih => simp [encodeTimeDigits, ih]

theorem encodeTimeDigits_lt (t len : Nat) :
    ∀ d ∈ encodeTimeDigits t len, d < 32 := by
  induction len generalizing t with
  | zero => simp [encodeTimeDigits]
  | succ n ih =>
    intro d hd
    simp only [encodeTimeDigits, List.mem_append, List.mem_singleton] at hd
    rcases hd with h | h
    · exact ih _ d h
    · omega

theorem decFold_encodeTimeDigits (len t : Nat) :
    decFold 32 (encodeTimeDigits t len) 0 = t % 32 ^ len := by
  induction len generalizing t with
  | zero => simp [encodeTimeDigits, decFold, Nat.mod_one]
  | succ n ih =>
    simp only [encodeTimeDigits]
    rw [decFold_append_single, ih]
    have hp : (32 : Nat) ^ (n + 1) = 32 * 32 ^ n := by ring
    rw [hp, Nat.mod_mul]
    ring

/-! ### Facts about the alphabet, provable by evaluation -/

theorem encChar_indexOf (d : Nat) (hd : d < 32) : ENCODING.indexOf (encChar d) = d := by
  revert d hd; decide

theorem encChar_mem (d : Nat) (hd : d < 32) : ENCODING.contains (encChar d) = true := by
  revert d hd; decide

theorem encChar_lt_iff (a : Nat) (ha : a < 32) (b : Nat) (hb : b < 32) :
    (encChar a < encChar b) ↔ a < b := by
  revert a ha b hb; decide

theorem encChar_inj (a : Nat) (ha : a < 32) (b : Nat) (hb : b < 32) :
    encChar a = encChar b ↔ a = b := by
  revert a ha b hb; decide

/-! ### Lexicographic comparison (string comparison of identifiers) -/

def lexLtB : List Nat → List Nat → Bool
  | [], [] => false
  | [], _ :: _ => true
  | _ :: _, [] => false
  | a :: as, b :: bs => if a < b then true else if a = b then lexLtB as bs else false

def lexLtC : List Char → List Char → Bool
  | [], [] => false
  | [], _ :: _ => true
  | _ :: _, [] => false
  | a :: as, b :: bs => if a < b then true else if a = b then lexLtC as bs else false

theorem lexLtC_map_encChar (ds1 ds2 : List Nat)
    (h1 : ∀ d ∈ ds1, d < 32) (h2 : ∀ d ∈ ds2, d < 32) :
    lexLtC (ds1.map encChar) (ds2.map encChar) = lexLtB ds1 ds2 := by
  induction ds1 generalizing ds2 with
  | nil => cases ds2 <;> simp [lexLtB, lexLtC]
  | cons a as ih =>
    cases ds2 with
    | nil => simp [lexLtB, lexLtC]
    | cons b bs =>
      have ha : a < 32 := h1 a (by simp)
      have hb : b < 32 := h2 b (by simp)
      have has : ∀ d ∈ as, d < 32 := fun d hd => h1 d (by simp [hd])
      have hbs : ∀ d ∈ bs, d < 32 := fun d hd => h2 d (by simp [hd])
      simp only [List.map_cons, lexLtB, lexLtC]
      by_cases hlt : a < b
      · simp [hlt, (encChar_lt_iff a ha b hb).mpr hlt]
      · have hlt' : ¬ encChar a < encChar b := fun hc =>
          hlt ((encChar_lt_iff a ha b hb).mp hc)
        by_cases heq : a = b
        · simp [hlt, hlt', heq, ih bs has hbs]
        · have heq' : ¬ encChar a = encChar b := fun hc =>
            heq ((encChar_inj a ha b hb).mp hc)
          simp [hlt, hlt', heq, heq']

theorem lexLtB_append_of_lt (p1 p2 s1 s2 : List Nat)
    (hlen : p1.length = p2.length) (h : lexLtB p1 p2 = true) :
    lexLtB (p1 ++ s1) (p2 ++ s2) = true := by
  induction p1 generalizing p2 with
  | nil =>
    cases p2 with
    | nil => simp [lexLtB] at h
    | cons b bs => simp at hlen
  | cons a as ih =>
    cases p2 with
    | nil => simp at hlen
    | cons b bs =>
      simp only [List.length_cons, Nat.succ_inj] at hlen
      simp only [List.cons_append, lexLtB]
      by_cases hlt : a < b
      · simp [hlt]
      · by_cases heq : a = b
        · subst heq
          simp only [lexLtB, if_neg hlt, if_pos rfl] at h
          simp only [if_neg hlt, if_pos rfl]
          exact ih bs hlen h
        · simp [lexLtB, hlt, heq] at h

theorem lexLtB_append_same (p s1 s2 : List Nat) :
    lexLtB (p ++ s1) (p ++ s2) = lexLtB s1 s2 := by
  induction p with
  | nil => simp
  | cons a as ih => simp [lexLtB, ih]

theorem lexLtB_of_decFold_lt (ds1 ds2 : List Nat)
    (hlen : ds1.length = ds2.length)
    (h1 : ∀ d ∈ ds1, d < 32) (h2 : ∀ d ∈ ds2, d < 32)
    (h : decFold 32 ds1 0 < decFold 32 ds2 0) :
    lexLtB ds1 ds2 = true := by
  induction ds1 generalizing ds2 with
  | nil =>
    cases ds2 with
    | nil => simp [decFold] at h
    | cons b bs => simp at hlen
  | cons a as ih =>
    cases ds2 with
    | nil => simp at hlen
    | cons b bs =>
      simp only [List.length_cons, Nat.succ_inj] at hlen
      have has : ∀ d ∈ as, d < 32 := fun d hd => h1 d (by simp [hd])
      have hbs : ∀ d ∈ bs, d < 32 := fun d hd => h2 d (by simp [hd])
      have hfa : decFold 32 as 0 < 32 ^ as.length := decFold_lt 32 (by omega) as has
      have hfb : decFold 32 bs 0 < 32 ^ bs.length := decFold_lt 32 (by omega) bs hbs
      simp only [decFold] at h
      rw [decFold_acc 32 as, decFold_acc 32 bs] at h
      simp only [lexLtB]
      rcases Nat.lt_trichotomy a b with hlt | heq | hgt
      · simp [hlt]
      · subst heq
        simp only [Nat.lt_irrefl, if_false, if_pos rfl, reduceIte]
        apply ih bs hlen has hbs
        rw [hlen] at h
        exact Nat.lt_of_add_lt_add_left h
      · exfalso
        rw [hlen] at h hfa
        simp only [Nat.zero_mul, Nat.zero_add] at h
        have hstep : (b + 1) * 32 ^ bs.length ≤ a * 32 ^ bs.length :=
          Nat.mul_le_mul_right _ (by omega)
        have hexp : (b + 1) * 32 ^ bs.length = b * 32 ^ bs.length + 32 ^ bs.length := by
          ring
        omega

theorem incRandomAux_some_spec (r r' : List Nat) (h : incRandomAux r = some r')
    (hr : ∀ d ∈ r, d < 32) :
    r'.length = r.length ∧ (∀ d ∈ r', d < 32) ∧ lexLtB r r' = true := by
  induction r generalizing r' with
  | nil => simp [incRandomAux] at h
  | cons d ds ih =>
    have hd : d < 32 := hr d (by simp)
    have hds : ∀ x ∈ ds, x < 32 := fun x hx => hr x (by simp [hx])
    simp only [incRandomAux] at h
    cases haux : incRandomAux ds with
    | some ds' =>
      rw [haux] at h
      simp only [Option.some_inj] at h
      subst h
      obtain ⟨hl, hlt, hlex⟩ := ih ds' haux hds
      refine ⟨by simp [hl], ?_, ?_⟩
      · intro x hx
        simp only [List.mem_cons] at hx
        rcases hx with h | h
        · omega
        · exact hlt x h
      · simp [lexLtB, hlex]
    | none =>
      rw [haux] at h
      by_cases hlt : d < 31
      · simp only [hlt, if_true, Option.some_inj] at h
        subst h
        refine ⟨by simp, ?_, ?_⟩
        · intro x hx
          simp only [List.mem_cons] at hx
          rcases hx with h | h
          · omega
          · rw [List.eq_of_mem_replicate h]; omega
        · simp [lexLtB, hlt]
      · simp [hlt] at h

/-! ### C10 : format validity and timestamp round-trip -/

theorem take_append_len {α : Type} (xs ys : List α) : (xs ++ ys).take xs.length = xs := by
  induction xs with
  | nil => simp
  | cons x xs ih => simp [ih]

theorem decodeTimeAux_map (ds : List Nat) (acc : Nat) (h : ∀ d ∈ ds, d < 32) :
    decodeTimeAux (ds.map encChar) acc = .ok (decFold 32 ds acc) := by
  induction ds generalizing acc with
  | nil => simp [decodeTimeAux, decFold]
  | cons d ds ih =>
    have hd : d < 32 := h d (by simp)
    have hds : ∀ x ∈ ds, x < 32 := fun x hx => h x (by simp [hx])
    simp only [List.map_cons, decodeTimeAux, encChar_indexOf d hd, decFold]
    simp [hd, ih _ hds]

theorem wfrand_after_increment (fresh r : List Nat) (hf : WFrand fresh)
    (hr : r = [] ∨ WFrand r) : WFrand (incrementRandom fresh r) := by
  unfold incrementRandom
  cases haux : incRandomAux r with
  | none => simpa using hf
  | some r' =>
    rcases hr with hnil | ⟨hlen, hlt⟩
    · subst hnil; simp [incRandomAux] at haux
    · obtain ⟨hl, hlt', _⟩ := incRandomAux_some_spec r r' haux hlt
      exact ⟨by simp [hl, hlen], by simpa using hlt'⟩

theorem encodeTime_length (t len : Nat) : (encodeTime t len).length = len := by
  simp [encodeTime, encodeTimeDigits_length]

theorem ulid_id_shape (fresh : List Nat) (st : UlidState) (t : Nat) (id : List Char)
    (st' : UlidState) (h : ulidStep fresh st t = .ok (id, st')) :
    id = (encodeTimeDigits t TIME_LEN ++ st'.lastRandom).map encChar ∧
      st'.lastTime = t ∧
      (st'.lastRandom = incrementRandom fresh st.lastRandom ∨ st'.lastRandom = fresh) := by
  unfold ulidStep at h
  by_cases hgt : t > TIME_MAX
  · rw [if_pos hgt] at h
    exact absurd h (by simp)
  · rw [if_neg hgt] at h
    by_cases heq : t = st.lastTime
    · rw [if_pos heq] at h
      simp only [Except.ok.injEq, Prod.mk.injEq] at h
      obtain ⟨hid, hst⟩ := h
      subst hst
      refine ⟨?_, rfl, Or.inl rfl⟩
      rw [← hid]
      simp [encodeTime, encodeRandom]
    · rw [if_neg heq] at h
      simp only [Except.ok.injEq, Prod.mk.injEq] at h
      obtain ⟨hid, hst⟩ := h
      subst hst
      refine ⟨?_, rfl, Or.inr rfl⟩
      rw [← hid]
      simp [encodeTime, encodeRandom]

theorem time_max_lt_pow : TIME_MAX < 32 ^ 10 := by
  unfold TIME_MAX
  norm_num

/-- C10: for every timestamp `t` with `0 ≤ t ≤ 2^48 - 1`, the identifier
generated from seed time `t` (from any generator state, with well-formed fresh
randomness) passes the `isValidUlid` format check, and `decodeTime` applied to
it returns exactly `t`. -/
theorem ulid_valid_and_decodeTime (t : Nat) (ht : t ≤ TIME_MAX)
    (st : UlidState) (fresh : List Nat) (hf : WFrand fresh)
    (hr : st.lastRandom = [] ∨ WFrand st.lastRandom) :
    ∃ id st', ulidStep fresh st t = .ok (id, st') ∧
      isValidUlid id = true ∧ decodeTime id = .ok t := by
  have hgt : ¬ t > TIME_MAX := by omega
  have hwf : ∀ (r : List Nat), WFrand r →
      isValidUlid ((encodeTimeDigits t TIME_LEN ++ r).map encChar) = true ∧
      decodeTime ((encodeTimeDigits t TIME_LEN ++ r).map encChar) = .ok t := by
    intro r hwfr
    obtain ⟨hlen, hlt⟩ := hwfr
    have hdigits : ∀ d ∈ encodeTimeDigits t TIME_LEN ++ r, d < 32 := by
      intro d hd
      rcases List.mem_append.mp hd with h | h
      · exact encodeTimeDigits_lt t TIME_LEN d h
      · exact hlt d h
    have hlenall : ((encodeTimeDigits t TIME_LEN ++ r).map encChar).length =
        TIME_LEN + RANDOM_LEN := by
      simp [encodeTimeDigits_length, hlen, TIME_LEN, RANDOM_LEN]
    constructor
    · unfold isValidUlid
      rw [hlenall]
      simp only [beq_self_eq_true, Bool.true_and]
      rw [List.all_eq_true]
      intro c hc
      obtain ⟨d, hd, hcd⟩ := List.mem_map.mp hc
      rw [← hcd]
      exact encChar_mem d (hdigits d hd)
    · unfold decodeTime
      rw [hlenall]
      simp only [ne_eq, not_true_eq_false, if_false, reduceIte]
      have htake : ((encodeTimeDigits t TIME_LEN ++ r).map encChar).take TIME_LEN =
          (encodeTimeDigits t TIME_LEN).map encChar := by
        rw [List.map_append]
        set A := List.map encChar (encodeTimeDigits t TIME_LEN) with hA
        have h10 : A.length = TIME_LEN := by
          rw [hA]; simp [encodeTimeDigits_length]
        rw [← h10, take_append_len]
      rw [htake, decodeTimeAux_map _ _ (encodeTimeDigits_lt t TIME_LEN)]
      rw [decFold_encodeTimeDigits]
      have : t % 32 ^ TIME_LEN = t := by
        apply Nat.mod_eq_of_lt
        have := time_max_lt_pow
        unfold TIME_LEN
        omega
      rw [this]
  have hshape : ∀ (r : List Nat),
      encodeTime t TIME_LEN ++ encodeRandom r =
        (encodeTimeDigits t TIME_LEN ++ r).map encChar := by
    intro r
    simp [encodeTime, encodeRandom, List.map_append]
  by_cases heq : t = st.lastTime
  · refine ⟨encodeTime t TIME_LEN ++ encodeRandom (incrementRandom fresh st.lastRandom),
      ⟨t, incrementRandom fresh st.lastRandom⟩, ?_, ?_, ?_⟩
    · unfold ulidStep
      rw [if_neg hgt, if_pos heq]
    · rw [hshape]
      exact (hwf _ (wfrand_after_increment fresh st.lastRandom hf hr)).1
    · rw [hshape]
      exact (hwf _ (wfrand_after_increment fresh st.lastRandom hf hr)).2
  · refine ⟨encodeTime t TIME_LEN ++ encodeRandom fresh, ⟨t, fresh⟩, ?_, ?_, ?_⟩
    · unfold ulidStep
      rw [if_neg hgt, if_neg heq]
    · rw [hshape]
      exact (hwf fresh hf).1
    · rw [hshape]
      exact (hwf fresh hf).2

/-- C10 witness: the theorem applied at the concrete seed time 3, the initial
generator state, and a concrete fresh random component. -/
theorem ulid_valid_and_decodeTime_witness :
    (3 ≤ TIME_MAX ∧ WFrand (List.replicate 16 7)) ∧
    ∃ id st', ulidStep (List.replicate 16 7) initUlidState 3 = .ok (id, st') ∧
      isValidUlid id = true ∧ decodeTime id = .ok 3 :=
  ⟨⟨by norm_num [TIME_MAX], by decide⟩,
    ulid_valid_and_decodeTime 3 (by norm_num [TIME_MAX]) initUlidState (List.replicate 16 7)
      (by decide) (Or.inl rfl)⟩

/-! ### C5 : same-process ordering of generated identifiers -/

/-- C5 (amended): for two consecutive calls with non-decreasing timestamps
(both in range), the first identifier sorts lexicographically before the
second, PROVIDED that a same-millisecond second call does not overflow the
random counter (i.e. `incrementRandom`'s carry loop finds a digit below 31).
On overflow the code falls back to fresh randomness and the ordering can be
violated (see the counterexample). -/
theorem ulid_monotone_no_overflow
    (st0 : UlidState) (t1 t2 : Nat) (fresh1 fresh2 : List Nat)
    (h1 : WFrand fresh1) (h2 : WFrand fresh2)
    (hr0 : st0.lastRandom = [] ∨ WFrand st0.lastRandom)
    (hle : t1 ≤ t2) (ht2 : t2 ≤ TIME_MAX)
    (id1 id2 : List Char) (st1 st2 : UlidState)
    (e1 : ulidStep fresh1 st0 t1 = .ok (id1, st1))
    (e2 : ulidStep fresh2 st1 t2 = .ok (id2, st2))
    (hnov : t2 = t1 → incRandomAux st1.lastRandom ≠ none) :
    lexLtC id1 id2 = true := by
  obtain ⟨hid1, hlt1, hr1⟩ := ulid_id_shape fresh1 st0 t1 id1 st1 e1
  obtain ⟨hid2, hlt2, hr2⟩ := ulid_id_shape fresh2 st1 t2 id2 st2 e2
  have hwf1 : WFrand st1.lastRandom := by
    rcases hr1 with h | h
    · rw [h]; exact wfrand_after_increment fresh1 st0.lastRandom h1 hr0
    · rw [h]; exact h1
  have hwf2 : WFrand st2.lastRandom := by
    rcases hr2 with h | h
    · rw [h]; exact wfrand_after_increment fresh2 st1.lastRandom h2 (Or.inr hwf1)
    · rw [h]; exact h2
  have hd1 : ∀ d ∈ encodeTimeDigits t1 TIME_LEN ++ st1.lastRandom, d < 32 := by
    intro d hd
    rcases List.mem_append.mp hd with h | h
    · exact encodeTimeDigits_lt t1 TIME_LEN d h
    · exact hwf1.2 d h
  have hd2 : ∀ d ∈ encodeTimeDigits t2 TIME_LEN ++ st2.lastRandom, d < 32 := by
    intro d hd
    rcases List.mem_append.mp hd with h | h
    · exact encodeTimeDigits_lt t2 TIME_LEN d h
    · exact hwf2.2 d h
  rw [hid1, hid2, lexLtC_map_encChar _ _ hd1 hd2]
  by_cases heq : t2 = t1
  · have hcond : t2 = st1.lastTime := by rw [hlt1]; exact heq
    unfold ulidStep at e2
    rw [if_neg (show ¬ t2 > TIME_MAX by omega), if_pos hcond] at e2
    simp only [Except.ok.injEq, Prod.mk.injEq] at e2
    obtain ⟨-, hst2⟩ := e2
    have hrand2 : st2.lastRandom = incrementRandom fresh2 st1.lastRandom := by
      rw [← hst2]
    cases h' : incRandomAux st1.lastRandom with
    | none => exact absurd h' (hnov heq)
    | some r' =>
      have hspec := incRandomAux_some_spec st1.lastRandom r' h' hwf1.2
      rw [hrand2]
      unfold incrementRandom
      rw [h']
      simp only [Option.getD_some]
      rw [heq, lexLtB_append_same]
      exact hspec.2.2
  · have hlt12 : t1 < t2 := by omega
    apply lexLtB_append_of_lt
    · simp [encodeTimeDigits_length]
    · apply lexLtB_of_decFold_lt
      · simp [encodeTimeDigits_length]
      · exact encodeTimeDigits_lt t1 TIME_LEN
      · exact encodeTimeDigits_lt t2 TIME_LEN
      · have hb : t2 < 32 ^ TIME_LEN := by
          have := time_max_lt_pow
          unfold TIME_MAX at this ht2
          unfold TIME_LEN
          omega
        have ha : t1 < 32 ^ TIME_LEN := by omega
        rw [decFold_encodeTimeDigits, decFold_encodeTimeDigits,
          Nat.mod_eq_of_lt ha, Nat.mod_eq_of_lt hb]
        exact hlt12

/-- C5 witness: two concrete consecutive calls at timestamps 5 then 6 from the
initial generator state; the first identifier sorts before the second. -/
theorem ulid_monotone_no_overflow_witness :
    lexLtC (encodeTime 5 TIME_LEN ++ encodeRandom (List.replicate 16 7))
      (encodeTime 6 TIME_LEN ++ encodeRandom (List.replicate 16 3)) = true :=
  ulid_monotone_no_overflow initUlidState 5 6
    (List.replicate 16 7) (List.replicate 16 3)
    (by decide) (by decide) (Or.inl rfl) (by omega) (by norm_num [TIME_MAX])
    (encodeTime 5 TIME_LEN ++ encodeRandom (List.replicate 16 7))
    (encodeTime 6 TIME_LEN ++ encodeRandom (List.replicate 16 3))
    ⟨5, List.replicate 16 7⟩ ⟨6, List.replicate 16 3⟩
    rfl rfl (by intro h; exact absurd h (by decide))

/-- C5 counterexample: the claim as stated is false.  Two consecutive calls in
the same millisecond (timestamp 5) where the stored random component is all
31s: the carry overflows, the code falls back to fresh randomness, and the
second identifier sorts strictly before the first. -/
theorem ulid_same_ms_order_counterexample :
    ulidStep (List.replicate 16 31) initUlidState 5 =
      .ok (encodeTime 5 TIME_LEN ++ encodeRandom (List.replicate 16 31),
        ⟨5, List.replicate 16 31⟩) ∧
    ulidStep (List.replicate 16 0) ⟨5, List.replicate 16 31⟩ 5 =
      .ok (encodeTime 5 TIME_LEN ++ encodeRandom (List.replicate 16 0),
        ⟨5, List.replicate 16 0⟩) ∧
    lexLtC (encodeTime 5 TIME_LEN ++ encodeRandom (List.replicate 16 31))
      (encodeTime 5 TIME_LEN ++ encodeRandom (List.replicate 16 0)) = false ∧
    lexLtC (encodeTime 5 TIME_LEN ++ encodeRandom (List.replicate 16 0))
      (encodeTime 5 TIME_LEN ++ encodeRandom (List.replicate 16 31)) = true := by
  refine ⟨rfl, rfl, by decide, by decide⟩

/-! ## Step Logger (`src/agent/step-logger.ts`)

NDJSON write-ahead log.  The on-disk file is modelled as the `List Char`
appended through the write stream.  A `StepLogEntry` is `{ts, type, detail}`;
`detail` is modelled as a string payload, serialized with JSON string
escaping of backslash, quote and newline (the characters relevant to
NDJSON framing).  `JSON.stringify`/`JSON.parse` on such records are embedded
as `stringifyEntry`/`parseEntry`. -/

inductive StepLogType where
  | plan
  | tool_call
  | tool_result
  | retrieval
  | observed_event
  | summary
  | error
deriving DecidableEq, Repr

structure StepLogEntry where
  ts : Nat
  type : StepLogType
  detail : List Char
deriving DecidableEq, Repr

/-! ### Decimal digits of the `ts` field -/

def digitChar : Nat → Char
  | 0 => '0' | 1 => '1' | 2 => '2' | 3 => '3' | 4 => '4'
  | 5 => '5' | 6 => '6' | 7 => '7' | 8 => '8' | 9 => '9'
  | _ => '0'

def natDigitsVals (n : Nat) : List Nat :=
  if h : n < 10 then [n] else natDigitsVals (n / 10) ++ [n % 10]
termination_by n
decreasing_by exact Nat.div_lt_self (by omega) (by norm_num)

def natDigits (n : Nat) : List Char := (natDigitsVals n).map digitChar

def isDigitChar (c : Char) : Bool := '0' ≤ c && c ≤ '9'

def digitsVal (ds : List Char) : Nat :=
  ds.foldl (fun a c => a * 10 + (c.toNat - 48)) 0

/-! ### JSON string escaping for the `detail` payload -/

def escapeChar (c : Char) : List Char :=
  if c = '\\' then ['\\', '\\']
  else if c = '"' then ['\\', '"']
  else if c = '\n' then ['\\', 'n']
  else [c]

def escapeString (s : List Char) : List Char := (s.map escapeChar).join

/-- Parse a JSON string body up to and including its closing quote; returns
the decoded content and the remaining input.  The boolean flag records
whether the previous character was an unconsumed backslash. -/
def unescapeGo : List Char → Bool → Option (List Char × List Char)
  | [], _ => none
  | c :: rest, true =>
    match unescapeGo rest false with
    | none => none
    | some (s, r) =>
      if c = '"' then some ('"' :: s, r)
      else if c = '\\' then some ('\\' :: s, r)
      else if c = 'n' then some ('\n' :: s, r)
      else none
  | c :: rest, false =>
    if c = '"' then some ([], rest)
    else if c = '\\' then unescapeGo rest true
    else
      match unescapeGo rest false with
      | none => none
      | some (s, r) => some (c :: s, r)

def unescapeAux (cs : List Char) : Option (List Char × List Char) :=
  unescapeGo cs false

/-! ### Record serialization: `JSON.stringify(entry)` with keys in
insertion order `ts`, `type`, `detail` -/

def typeStr : StepLogType → List Char
  | .plan => ['p','l','a','n']
  | .tool_call => ['t','o','o','l','_','c','a','l','l']
  | .tool_result => ['t','o','o','l','_','r','e','s','u','l','t']
  | .retrieval => ['r','e','t','r','i','e','v','a','l']
  | .observed_event => ['o','b','s','e','r','v','e','d','_','e','v','e','n','t']
  | .summary => ['s','u','m','m','a','r','y']
  | .error => ['e','r','r','o','r']

def jsonKeyTs : List Char := ['{','"','t','s','"',':']

def jsonKeyType : List Char := [',','"','t','y','p','e','"',':','"']

def jsonKeyDetail : List Char := ['"',',','"','d','e','t','a','i','l','"',':','"']

def jsonTail : List Char := ['"','}']

def stringifyEntry (e : StepLogEntry) : List Char :=
  jsonKeyTs ++ natDigits e.ts ++ jsonKeyType ++ typeStr e.type ++
    jsonKeyDetail ++ escapeString e.detail ++ jsonTail

/-! ### Record parsing: `JSON.parse(line)` on lines produced by
`stringifyEntry` -/

def expectLit : List Char → List Char → Option (List Char)
  | [], cs => some cs
  | _ :: _, [] => none
  | l :: ls, c :: cs => if c = l then expectLit ls cs else none

def typeTable : List (StepLogType × List Char) :=
  [(.plan, typeStr .plan), (.tool_call, typeStr .tool_call),
   (.tool_result, typeStr .tool_result), (.retrieval, typeStr .retrieval),
   (.observed_event, typeStr .observed_event), (.summary, typeStr .summary),
   (.error, typeStr .error)]

def parseTypeAux : List (StepLogType × List Char) → List Char →
    Option (StepLogType × List Char)
  | [], _ => none
  | (t, lit) :: rest, cs =>
    match expectLit lit cs with
    | some r => some (t, r)
    | none => parseTypeAux rest cs

def parseEntry (cs : List Char) : Option StepLogEntry :=
  match expectLit jsonKeyTs cs with
  | none => none
  | some r1 =>
    let ds := r1.takeWhile isDigitChar
    let r2 := r1.dropWhile isDigitChar
    if ds.isEmpty then none
    else
      match expectLit jsonKeyType r2 with
      | none => none
      | some r3 =>
        match parseTypeAux typeTable r3 with
        | none => none
        | some (ty, r4) =>
          match expectLit jsonKeyDetail r4 with
          | none => none
          | some r5 =>
            match unescapeAux r5 with
            | none => none
            | some (d, r6) =>
              if r6 = ['}'] then some ⟨digitsVal ds, ty, d⟩ else none

/-! ### File reading: `StepLogger.readLog` -/

def isWsChar (c : Char) : Bool := c = ' ' || c = '\n' || c = '\t' || c = '\r'

def trimChars (cs : List Char) : List Char :=
  ((cs.dropWhile isWsChar).reverse.dropWhile isWsChar).reverse

def splitOnNl : List Char → List (List Char)
  | [] => [[]]
  | c :: rest =>
    if c = '\n' then [] :: splitOnNl rest
    else
      match splitOnNl rest with
      | [] => [[c]]
      | l :: ls => (c :: l) :: ls

/-- Model of `lines.map(line => JSON.parse(line))`: parse every line in order; the
first failure propagates as an error. -/
def parseLines : List (List Char) → Option (List StepLogEntry)
  | [] => some []
  | l :: ls =>
    match parseEntry l, parseLines ls with
    | some e, some es => some (e :: es)
    | _, _ => none

/-- Model of `readLog` on an existing file's content: trim, split into lines, drop
blank lines, `JSON.parse` each line (a parse failure propagates). -/
def readLog (file : List Char) : Option (List StepLogEntry) :=
  parseLines ((splitOnNl (trimChars file)).filter
    (fun l => ¬ (trimChars l).isEmpty))

/-! ### The logger state machine -/

structure StepLoggerState where
  buffer : List StepLogEntry
  file : List Char
  closed : Bool
  bufferSize : Nat
deriving DecidableEq, Repr

/-- The constructor default `config.bufferSize || 5`: absent or zero becomes the default 5. -/
def mkBufferSize (configured : Nat) : Nat :=
  if configured = 0 then 5 else configured

/-- Logger as created by `start()` (stream open, empty buffer). -/
def initLogger (bufferSize : Nat) : StepLoggerState := ⟨[], [], false, bufferSize⟩

def joinLines : List (List Char) → List Char
  | [] => []
  | [l] => l
  | l :: ls => l ++ '\n' :: joinLines ls

/-- Model of `flush()`: drain the buffer and append all entries as NDJSON in a single
write (`join('\n') + '\n'`). -/
def flushOp (st : StepLoggerState) : StepLoggerState :=
  if st.buffer.isEmpty then st
  else
    { st with
      file := st.file ++ joinLines (st.buffer.map stringifyEntry) ++ ['\n'],
      buffer := [] }

/-- Model of `log(entry)`: fails loudly after `close()`; buffers the entry and flushes
once the buffer reaches the size threshold. -/
def logOp (st : StepLoggerState) (e : StepLogEntry) : Except String StepLoggerState :=
  if st.closed then .error "StepLogger is closed"
  else
    let st' := { st with buffer := st.buffer ++ [e] }
    if st.bufferSize ≤ st'.buffer.length then .ok (flushOp st') else .ok st'

/-- Model of `close()`: idempotent; marks closed and performs a final flush. -/
def closeOp (st : StepLoggerState) : StepLoggerState :=
  if st.closed then st else flushOp { st with closed := true }

def runLogAux : StepLoggerState → List StepLogEntry → Except String StepLoggerState
  | st, [] => .ok st
  | st, e :: es =>
    match logOp st e with
    | .error msg => .error msg
    | .ok st' => runLogAux st' es

/-! ### Serialization round-trip lemmas -/

theorem natDigitsVals_lt (n : Nat) : ∀ d ∈ natDigitsVals n, d < 10 := by
  induction n using Nat.strong_induction_on with
  | _ n ih =>
    rw [natDigitsVals]
    by_cases h : n < 10
    · simp [h]
    · rw [dif_neg h]
      intro d hd
      rcases List.mem_append.mp hd with hmem | hmod
      · exact ih (n / 10) (Nat.div_lt_self (by omega) (by norm_num)) d hmem
      · have : d = n % 10 := List.mem_singleton.mp hmod
        omega

theorem natDigitsVals_ne_nil (n : Nat) : natDigitsVals n ≠ [] := by
  rw [natDigitsVals]
  by_cases h : n < 10 <;> simp [h]

theorem decFold_natDigitsVals (n : Nat) : decFold 10 (natDigitsVals n) 0 = n := by
  induction n using Nat.strong_induction_on with
  | _ n ih =>
    rw [natDigitsVals]
    by_cases h : n < 10
    · simp [h, decFold]
    · rw [dif_neg h, decFold_append_single,
        ih (n / 10) (Nat.div_lt_self (by omega) (by norm_num))]
      omega

theorem digitChar_isDigit (d : Nat) (hd : d < 10) : isDigitChar (digitChar d) = true := by
  revert d hd; decide

theorem digitChar_toNat (d : Nat) (hd : d < 10) : (digitChar d).toNat - 48 = d := by
  revert d hd; decide

theorem digitsVal_go (ds : List Nat) (acc : Nat) (h : ∀ d ∈ ds, d < 10) :
    (ds.map digitChar).foldl (fun a c => a * 10 + (c.toNat - 48)) acc =
      decFold 10 ds acc := by
  induction ds generalizing acc with
  | nil => simp [decFold]
  | cons d ds ih =>
    have hd : d < 10 := h d (by simp)
    have hds : ∀ x ∈ ds, x < 10 := fun x hx => h x (by simp [hx])
    simp only [List.map_cons, List.foldl_cons, decFold]
    rw [digitChar_toNat d hd]
    exact ih _ hds

theorem digitsVal_natDigits (n : Nat) : digitsVal (natDigits n) = n := by
  unfold digitsVal natDigits
  rw [digitsVal_go _ 0 (natDigitsVals_lt n), decFold_natDigitsVals]

theorem natDigits_all_digit (n : Nat) : ∀ c ∈ natDigits n, isDigitChar c = true := by
  intro c hc
  obtain ⟨d, hd, hcd⟩ := List.mem_map.mp hc
  rw [← hcd]
  exact digitChar_isDigit d (natDigitsVals_lt n d hd)

theorem natDigits_ne_nil (n : Nat) : natDigits n ≠ [] := by
  unfold natDigits
  simp [natDigitsVals_ne_nil n]

theorem expectLit_self_append (l r : List Char) : expectLit l (l ++ r) = some r := by
  induction l with
  | nil => simp [expectLit]
  | cons c cs ih => simp [expectLit, ih]

theorem takeWhile_append_stop {p : Char → Bool} (xs : List Char) (y : Char)
    (r : List Char) (hxs : ∀ c ∈ xs, p c = true) (hy : p y = false) :
    (xs ++ y :: r).takeWhile p = xs := by
  induction xs with
  | nil => simp [List.takeWhile, hy]
  | cons x xs ih =>
    have hx : p x = true := hxs x (by simp)
    have hxs' : ∀ c ∈ xs, p c = true := fun c hc => hxs c (by simp [hc])
    simp [List.takeWhile, hx, ih hxs']

theorem dropWhile_append_stop {p : Char → Bool} (xs : List Char) (y : Char)
    (r : List Char) (hxs : ∀ c ∈ xs, p c = true) (hy : p y = false) :
    (xs ++ y :: r).dropWhile p = y :: r := by
  induction xs with
  | nil => simp [List.dropWhile, hy]
  | cons x xs ih =>
    have hx : p x = true := hxs x (by simp)
    have hxs' : ∀ c ∈ xs, p c = true := fun c hc => hxs c (by simp [hc])
    simp [List.dropWhile, hx, ih hxs']

theorem parseTypeAux_typeStr (t : StepLogType) (r : List Char) :
    parseTypeAux typeTable (typeStr t ++ r) = some (t, r) := by
  cases t <;>
    simp [parseTypeAux, typeTable, typeStr, expectLit, expectLit_self_append]

theorem unescapeGo_cons_plain (c : Char) (rest : List Char)
    (h2 : ¬ c = '"') (h1 : ¬ c = '\\') :
    unescapeGo (c :: rest) false =
      match unescapeGo rest false with
      | none => none
      | some (s, r) => some (c :: s, r) := by
  simp only [unescapeGo]
  rw [if_neg h2, if_neg h1]

theorem unescapeAux_escape (s r : List Char) :
    unescapeAux (escapeString s ++ '"' :: r) = some (s, r) := by
  unfold unescapeAux
  induction s with
  | nil => simp [escapeString, unescapeGo]
  | cons c cs ih =>
    have hexp : escapeString (c :: cs) = escapeChar c ++ escapeString cs := by
      simp [escapeString]
    rw [hexp]
    by_cases h1 : c = '\\'
    · subst h1
      simp [escapeChar, unescapeGo, ih]
    · by_cases h2 : c = '"'
      · subst h2
        simp [escapeChar, unescapeGo, ih]
      · by_cases h3 : c = '\n'
        · subst h3
          simp [escapeChar, unescapeGo, ih]
        · have hesc : escapeChar c = [c] := by
            simp [escapeChar, h1, h2, h3]
          rw [hesc, List.singleton_append, List.cons_append,
            unescapeGo_cons_plain c (escapeString cs ++ '"' :: r) h2 h1, ih]

theorem parseEntry_stringify (e : StepLogEntry) :
    parseEntry (stringifyEntry e) = some e := by
  have hassoc : stringifyEntry e =
      jsonKeyTs ++ (natDigits e.ts ++ (jsonKeyType ++ (typeStr e.type ++
        (jsonKeyDetail ++ (escapeString e.detail ++ jsonTail))))) := by
    simp [stringifyEntry, List.append_assoc]
  have hmid : jsonKeyType ++ (typeStr e.type ++ (jsonKeyDetail ++
        (escapeString e.detail ++ jsonTail))) =
      ',' :: (['"','t','y','p','e','"',':','"'] ++ (typeStr e.type ++ (jsonKeyDetail ++
        (escapeString e.detail ++ jsonTail)))) := rfl
  have htk : List.takeWhile isDigitChar (natDigits e.ts ++ (jsonKeyType ++
        (typeStr e.type ++ (jsonKeyDetail ++ (escapeString e.detail ++ jsonTail))))) =
      natDigits e.ts := by
    rw [hmid]
    exact takeWhile_append_stop _ _ _ (natDigits_all_digit e.ts) (by decide)
  have hdr : List.dropWhile isDigitChar (natDigits e.ts ++ (jsonKeyType ++
        (typeStr e.type ++ (jsonKeyDetail ++ (escapeString e.detail ++ jsonTail))))) =
      jsonKeyType ++ (typeStr e.type ++ (jsonKeyDetail ++
        (escapeString e.detail ++ jsonTail))) := by
    rw [hmid]
    exact dropWhile_append_stop _ _ _ (natDigits_all_digit e.ts) (by decide)
  have hne : (natDigits e.ts).isEmpty = false := by
    cases hn : natDigits e.ts with
    | nil => exact absurd hn (natDigits_ne_nil e.ts)
    | cons a l => simp
  have hun : unescapeAux (escapeString e.detail ++ jsonTail) =
      some (e.detail, ['}']) := by
    have h : escapeString e.detail ++ jsonTail =
        escapeString e.detail ++ '"' :: ['}'] := rfl
    rw [h, unescapeAux_escape]
  rw [hassoc]
  unfold parseEntry
  rw [expectLit_self_append]
  simp only [htk, hdr, hne, Bool.false_eq_true, if_false, expectLit_self_append,
    parseTypeAux_typeStr, hun, digitsVal_natDigits, reduceIte]

/-! ### NDJSON file-level lemmas -/

def concatWithNl (ls : List (List Char)) : List Char :=
  (ls.map (fun l => l ++ ['\n'])).join

theorem concatWithNl_append (xs ys : List (List Char)) :
    concatWithNl (xs ++ ys) = concatWithNl xs ++ concatWithNl ys := by
  simp [concatWithNl]

theorem joinLines_nl (ls : List (List Char)) (h : ls ≠ []) :
    joinLines ls ++ ['\n'] = concatWithNl ls := by
  induction ls with
  | nil => exact absurd rfl h
  | cons l ls ih =>
    cases ls with
    | nil => simp [joinLines, concatWithNl]
    | cons l' ls' =>
      have h' : l' :: ls' ≠ [] := by simp
      calc joinLines (l :: l' :: ls') ++ ['\n']
          = l ++ ('\n' :: (joinLines (l' :: ls') ++ ['\n'])) := by
            simp [joinLines]
        _ = l ++ ('\n' :: concatWithNl (l' :: ls')) := by rw [ih h']
        _ = concatWithNl (l :: l' :: ls') := by
            simp [concatWithNl, List.append_assoc]

theorem stringify_starts (e : StepLogEntry) :
    ∃ cs, stringifyEntry e = '{' :: cs :=
  ⟨_, rfl⟩

theorem stringify_ends (e : StepLogEntry) :
    ∃ z, stringifyEntry e = z ++ ['}'] := by
  refine ⟨jsonKeyTs ++ natDigits e.ts ++ jsonKeyType ++ typeStr e.type ++
    jsonKeyDetail ++ escapeString e.detail ++ ['"'], ?_⟩
  simp [stringifyEntry, jsonTail, List.append_assoc]

theorem escape_noNl (s : List Char) : ∀ c ∈ escapeString s, c ≠ '\n' := by
  induction s with
  | nil => simp [escapeString]
  | cons c cs ih =>
    intro x hx
    have hexp : escapeString (c :: cs) = escapeChar c ++ escapeString cs := by
      simp [escapeString]
    rw [hexp] at hx
    rcases List.mem_append.mp hx with h | h
    · unfold escapeChar at h
      by_cases h1 : c = '\\'
      · simp [h1] at h
        subst h; decide
      · by_cases h2 : c = '"'
        · simp [h1, h2] at h
          rcases h with rfl | rfl <;> decide
        · by_cases h3 : c = '\n'
          · simp [h1, h2, h3] at h
            rcases h with rfl | rfl <;> decide
          · simp [h1, h2, h3] at h
            subst h; exact h3
    · exact ih x h

theorem stringify_noNl (e : StepLogEntry) : ∀ c ∈ stringifyEntry e, c ≠ '\n' := by
  obtain ⟨ts, ty, detail⟩ := e
  intro c hc
  unfold stringifyEntry at hc
  simp only [List.append_assoc, List.mem_append] at hc
  rcases hc with h | h | h | h | h | h | h
  · fin_cases h <;> decide
  · have hd := natDigits_all_digit ts c h
    intro hEq
    rw [hEq] at hd
    exact absurd hd (by decide)
  · fin_cases h <;> decide
  · cases ty <;> simp only [typeStr] at h <;> fin_cases h <;> decide
  · fin_cases h <;> decide
  · exact escape_noNl detail c h
  · fin_cases h <;> decide

theorem splitOnNl_noNl (l : List Char) (h : ∀ c ∈ l, c ≠ '\n') :
    splitOnNl l = [l] := by
  induction l with
  | nil => rfl
  | cons c cs ih =>
    have hc : c ≠ '\n' := h c (by simp)
    have hcs : ∀ x ∈ cs, x ≠ '\n' := fun x hx => h x (by simp [hx])
    simp only [splitOnNl, if_neg hc, ih hcs]

theorem splitOnNl_append_nl (l r : List Char) (h : ∀ c ∈ l, c ≠ '\n') :
    splitOnNl (l ++ '\n' :: r) = l :: splitOnNl r := by
  induction l with
  | nil => simp [splitOnNl]
  | cons c cs ih =>
    have hc : c ≠ '\n' := h c (by simp)
    have hcs : ∀ x ∈ cs, x ≠ '\n' := fun x hx => h x (by simp [hx])
    simp only [List.cons_append, splitOnNl, if_neg hc, List.append_eq]
    rw [ih hcs]

theorem joinLines_starts (l0 : List Char) (ls : List (List Char)) (c : Char)
    (cs : List Char) (h : l0 = c :: cs) :
    ∃ rest, joinLines (l0 :: ls) = c :: rest := by
  cases ls with
  | nil => exact ⟨cs, by simp [joinLines, h]⟩
  | cons l' ls' => exact ⟨cs ++ '\n' :: joinLines (l' :: ls'), by simp [joinLines, h]⟩

theorem joinLines_ends (lines : List (List Char)) (hne : lines ≠ [])
    (hl : ∀ l ∈ lines, ∃ z, l = z ++ ['}']) :
    ∃ z, joinLines lines = z ++ ['}'] := by
  induction lines with
  | nil => exact absurd rfl hne
  | cons l ls ih =>
    cases ls with
    | nil =>
      obtain ⟨z, hz⟩ := hl l (by simp)
      exact ⟨z, by simpa [joinLines] using hz⟩
    | cons l' ls' =>
      obtain ⟨z, hz⟩ := ih (by simp) (fun x hx => hl x (by simp at hx ⊢; tauto))
      refine ⟨l ++ '\n' :: z, ?_⟩
      simp [joinLines, hz, List.append_assoc]

theorem splitOnNl_join (lines : List (List Char)) (hne : lines ≠ [])
    (hnl : ∀ l ∈ lines, ∀ c ∈ l, c ≠ '\n') :
    splitOnNl (joinLines lines) = lines := by
  induction lines with
  | nil => exact absurd rfl hne
  | cons l ls ih =>
    cases ls with
    | nil =>
      simp only [joinLines]
      exact splitOnNl_noNl l (hnl l (by simp))
    | cons l' ls' =>
      have hstep : joinLines (l :: l' :: ls') = l ++ '\n' :: joinLines (l' :: ls') := by
        simp [joinLines]
      rw [hstep, splitOnNl_append_nl l _ (hnl l (by simp))]
      rw [ih (by simp) (fun x hx => hnl x (by simp at hx ⊢; tauto))]

theorem trimChars_of_shape (j : List Char) (c : Char) (rest z : List Char)
    (hhead : j = c :: rest) (hc : isWsChar c = false)
    (hlast : j = z ++ ['}']) :
    trimChars (j ++ ['\n']) = j := by
  unfold trimChars
  have h1 : (j ++ ['\n']).dropWhile isWsChar = j ++ ['\n'] := by
    rw [hhead]
    simp [List.dropWhile, hc]
  rw [h1]
  have h2 : (j ++ ['\n']).reverse = '\n' :: j.reverse := by
    simp
  rw [h2]
  have h3 : List.dropWhile isWsChar ('\n' :: j.reverse) =
      List.dropWhile isWsChar j.reverse := by
    simp [List.dropWhile, isWsChar]
  rw [h3]
  have h4 : j.reverse = '}' :: z.reverse := by
    rw [hlast]; simp
  rw [h4]
  have h5 : List.dropWhile isWsChar ('}' :: z.reverse) = '}' :: z.reverse := by
    simp [List.dropWhile, isWsChar]
  rw [h5, ← h4]
  simp

theorem trimChars_cons_ne (c : Char) (cs : List Char) (hc : isWsChar c = false) :
    trimChars (c :: cs) ≠ [] := by
  unfold trimChars
  intro hcontra
  have h1 : (c :: cs).dropWhile isWsChar = c :: cs := by
    simp [List.dropWhile, hc]
  rw [h1] at hcontra
  have h2 : List.dropWhile isWsChar (c :: cs).reverse = [] := by
    simpa using hcontra
  have h3 : ∀ x ∈ (c :: cs).reverse, isWsChar x := List.dropWhile_eq_nil_iff.mp h2
  have h4 : isWsChar c := h3 c (by simp)
  rw [hc] at h4
  exact absurd h4 (by simp)

theorem parseLines_stringify (es : List StepLogEntry) :
    parseLines (es.map stringifyEntry) = some es := by
  induction es with
  | nil => rfl
  | cons e es ih =>
    rw [List.map_cons]
    simp only [parseLines, parseEntry_stringify e, ih]

/-- Reading back: `readLog` recovers exactly the entry sequence from a file that is the
concatenation of their NDJSON lines. -/
theorem readLog_concat (es : List StepLogEntry) :
    readLog (concatWithNl (es.map stringifyEntry)) = some es := by
  cases es with
  | nil => rfl
  | cons e0 rest =>
    have hexpand : (e0 :: rest).map stringifyEntry =
        stringifyEntry e0 :: rest.map stringifyEntry := by simp
    rw [hexpand]
    have hne : stringifyEntry e0 :: rest.map stringifyEntry ≠ [] := by simp
    have hnl : ∀ l ∈ stringifyEntry e0 :: rest.map stringifyEntry,
        ∀ c ∈ l, c ≠ '\n' := by
      intro l hl
      rcases List.mem_cons.mp hl with rfl | hl'
      · exact stringify_noNl e0
      · obtain ⟨e, _, he⟩ := List.mem_map.mp hl'
        rw [← he]
        exact stringify_noNl e
    have hends : ∀ l ∈ stringifyEntry e0 :: rest.map stringifyEntry,
        ∃ z, l = z ++ ['}'] := by
      intro l hl
      rcases List.mem_cons.mp hl with rfl | hl'
      · exact stringify_ends e0
      · obtain ⟨e, _, he⟩ := List.mem_map.mp hl'
        rw [← he]
        exact stringify_ends e
    obtain ⟨cs0, hcs0⟩ := stringify_starts e0
    obtain ⟨jrest, hjhead⟩ :=
      joinLines_starts (stringifyEntry e0) (rest.map stringifyEntry) '{' cs0 hcs0
    obtain ⟨z, hjend⟩ :=
      joinLines_ends (stringifyEntry e0 :: rest.map stringifyEntry) hne hends
    rw [← joinLines_nl _ hne]
    unfold readLog
    rw [trimChars_of_shape _ '{' jrest z hjhead (by decide) hjend]
    rw [splitOnNl_join _ hne hnl]
    have hfilter : (stringifyEntry e0 :: rest.map stringifyEntry).filter
        (fun l => ¬ (trimChars l).isEmpty) =
        stringifyEntry e0 :: rest.map stringifyEntry := by
      rw [List.filter_eq_self]
      intro l hl
      have hstart : ∃ cs, l = '{' :: cs := by
        rcases List.mem_cons.mp hl with rfl | hl'
        · exact stringify_starts e0
        · obtain ⟨e, _, he⟩ := List.mem_map.mp hl'
          rw [← he]
          exact stringify_starts e
      obtain ⟨cs, hcs⟩ := hstart
      have hneq : trimChars l ≠ [] := by
        rw [hcs]
        exact trimChars_cons_ne '{' cs (by decide)
      simpa [List.isEmpty_iff] using hneq
    rw [hfilter, ← hexpand, show ((e0 :: rest).map stringifyEntry) =
      (e0 :: rest).map stringifyEntry from rfl, parseLines_stringify]

/-! ### The write-ahead state invariant -/

def pendingFile (st : StepLoggerState) : List Char :=
  st.file ++ concatWithNl (st.buffer.map stringifyEntry)

theorem flushOp_pending (st : StepLoggerState) :
    pendingFile (flushOp st) = pendingFile st ∧ (flushOp st).buffer = [] ∧
      (flushOp st).closed = st.closed ∧ (flushOp st).bufferSize = st.bufferSize := by
  unfold flushOp
  by_cases h : st.buffer.isEmpty
  · have : st.buffer = [] := by simpa [List.isEmpty_iff] using h
    simp [h, pendingFile, this]
  · have hne : st.buffer ≠ [] := by simpa [List.isEmpty_iff] using h
    have hne' : st.buffer.map stringifyEntry ≠ [] := by simpa using hne
    simp only [h, Bool.false_eq_true, if_false, pendingFile, concatWithNl,
      List.map_nil, List.join_nil, List.append_nil, reduceIte]
    rw [List.append_assoc, joinLines_nl _ hne']
    simp [concatWithNl]

theorem logOp_ok (st : StepLoggerState) (e : StepLogEntry) (h : st.closed = false) :
    ∃ st', logOp st e = .ok st' ∧ st'.closed = false ∧
      pendingFile st' = pendingFile st ++ (stringifyEntry e ++ ['\n']) := by
  have hnot : ¬ st.closed = true := by simp [h]
  have hpend : pendingFile { st with buffer := st.buffer ++ [e] } =
      pendingFile st ++ (stringifyEntry e ++ ['\n']) := by
    unfold pendingFile
    simp only [List.map_append, List.map_cons, List.map_nil]
    rw [concatWithNl_append]
    simp [concatWithNl, List.append_assoc]
  by_cases hb : st.bufferSize ≤ (st.buffer ++ [e]).length
  · refine ⟨flushOp { st with buffer := st.buffer ++ [e] }, ?_, ?_, ?_⟩
    · unfold logOp
      rw [if_neg hnot, if_pos hb]
    · rw [(flushOp_pending _).2.2.1]; exact h
    · rw [(flushOp_pending _).1, hpend]
  · refine ⟨{ st with buffer := st.buffer ++ [e] }, ?_, h, hpend⟩
    · unfold logOp
      rw [if_neg hnot, if_neg hb]

theorem runLogAux_ok (es : List StepLogEntry) (st : StepLoggerState)
    (h : st.closed = false) :
    ∃ st', runLogAux st es = .ok st' ∧ st'.closed = false ∧
      pendingFile st' = pendingFile st ++ concatWithNl (es.map stringifyEntry) := by
  induction es generalizing st with
  | nil => exact ⟨st, rfl, h, by simp [concatWithNl]⟩
  | cons e es ih =>
    obtain ⟨st1, hlog, hcl1, hpend1⟩ := logOp_ok st e h
    obtain ⟨st2, hrun, hcl2, hpend2⟩ := ih st1 hcl1
    refine ⟨st2, ?_, hcl2, ?_⟩
    · simp only [runLogAux, hlog, hrun]
    · rw [hpend2, hpend1]
      have : concatWithNl ((e :: es).map stringifyEntry) =
          (stringifyEntry e ++ ['\n']) ++ concatWithNl (es.map stringifyEntry) := by
        simp [concatWithNl]
      rw [this, List.append_assoc]

theorem closeOp_file (st : StepLoggerState) (h : st.closed = false) :
    (closeOp st).file = pendingFile st := by
  unfold closeOp
  rw [h]
  simp only [Bool.false_eq_true, if_false, reduceIte]
  unfold flushOp
  by_cases hb : st.buffer.isEmpty
  · have hnil : st.buffer = [] := by simpa [List.isEmpty_iff] using hb
    simp [hb, pendingFile, hnil, concatWithNl]
  · have hne : st.buffer ≠ [] := by simpa [List.isEmpty_iff] using hb
    have hne' : st.buffer.map stringifyEntry ≠ [] := by simpa using hne
    simp only [hb, Bool.false_eq_true, if_false, reduceIte]
    unfold pendingFile
    rw [List.append_assoc, joinLines_nl _ hne']

/-- C6: for every finite sequence of entries logged through one logger
instance followed by `close()`, `readLog` on the resulting file returns
exactly that sequence, in order, with no loss and no duplication — for every
buffer-size threshold, in particular when the threshold is crossed many
times mid-sequence. -/
theorem stepLogger_wal_roundtrip (es : List StepLogEntry) (bufferSize : Nat) :
    ∃ st', runLogAux (initLogger bufferSize) es = .ok st' ∧
      readLog ((closeOp st').file) = some es := by
  obtain ⟨st', hrun, hcl, hpend⟩ := runLogAux_ok es (initLogger bufferSize) rfl
  refine ⟨st', hrun, ?_⟩
  rw [closeOp_file st' hcl, hpend]
  have hinit : pendingFile (initLogger bufferSize) = [] := rfl
  rw [hinit, List.nil_append, readLog_concat]

def demoEntries : List StepLogEntry :=
  [⟨1, .plan, ['s','t','a','r','t']⟩,
   ⟨2, .tool_call, ['a','"','b','\\','c','\n','d']⟩,
   ⟨3, .summary, []⟩]

/-- C6 witness: three concrete entries (one with a quote, a backslash and an
embedded newline in its payload) logged with buffer threshold 2 — crossed
mid-sequence — read back exactly. -/
theorem stepLogger_wal_roundtrip_witness :
    ∃ st', runLogAux (initLogger 2) demoEntries = .ok st' ∧
      readLog ((closeOp st').file) = some demoEntries :=
  stepLogger_wal_roundtrip demoEntries 2

/-! ## Data model (`src/agent/types.ts`)

Structures carry the fields consulted by the modelled code paths; free-form
payloads (fact/pin contents, planner hints, metadata bags) are modelled as
strings or omitted where no modelled operation reads them.  JS `Set`s are
ordered lists of their elements, and JS `Map`s association lists. -/

inductive SessionStatus where
  | active
  | ended
  | expired
deriving DecidableEq, Repr

inductive MsgRole where
  | user
  | assistant
  | system
deriving DecidableEq, Repr

structure TurnMessage where
  role : MsgRole
  content : String
  timestamp : Nat
  continuationId : Option String
deriving DecidableEq, Repr

structure TurnMessageMeta where
  continuationId : String
  timestamp : Nat
  preview : String
deriving DecidableEq, Repr

structure SessionMemory where
  rollingSummary : String
  facts : List String
  pins : List String
  lastK : List TurnMessage
deriving DecidableEq, Repr

structure SessionStats where
  totalContinuations : Nat
  totalSteps : Nat
  totalTokensEstimate : Nat
  totalToolCalls : Nat
  lastActivityAt : Nat
deriving DecidableEq, Repr

structure AgentSession where
  id : String
  createdAt : Nat
  updatedAt : Nat
  status : SessionStatus
  memory : SessionMemory
  messages : List TurnMessageMeta
  openContinuations : List String
  stats : SessionStats
  version : Nat
deriving DecidableEq, Repr

inductive ContinuationStatus where
  | pending
  | running
  | streaming
  | completed
  | failed
  | cancelled
  | expired
  | interrupted
deriving DecidableEq, Repr

structure ContinuationRequest where
  message : String
  allowTools : Bool
  maxSteps : Nat
  timeBudgetMs : Nat
  idempotencyKey : Option String
deriving DecidableEq, Repr

structure ContinuationResponse where
  finalMessage : String
  reasoningSummary : Option String
  followUps : List String
deriving DecidableEq, Repr

structure ContinuationError where
  code : String
  message : String
  recoverable : Bool
deriving DecidableEq, Repr

structure Continuation where
  id : String
  sessionId : String
  status : ContinuationStatus
  createdAt : Nat
  updatedAt : Nat
  request : ContinuationRequest
  response : Option ContinuationResponse
  stepLog : List StepLogEntry
  error : Option ContinuationError
deriving DecidableEq, Repr

/-! ### `DEFAULTS` (`src/agent/types.ts`) -/

structure DefaultsMemory where
  lastK : Nat
  summaryTokens : Nat
deriving DecidableEq, Repr

structure DefaultsConcurrency where
  maxOpenContinuationsPerSession : Nat
deriving DecidableEq, Repr

structure Defaults where
  memory : DefaultsMemory
  concurrency : DefaultsConcurrency
deriving DecidableEq, Repr

def DEFAULTS : Defaults :=
  { memory := { lastK := 6, summaryTokens := 2000 },
    concurrency := { maxOpenContinuationsPerSession := 1 } }

/-! ## Persistence layer (`src/agent/file-layout.ts`)

Whole-record overwrite of session and continuation JSON files. -/

structure FileLayoutState where
  sessions : List (String × AgentSession)
  continuations : List ((String × String) × Continuation)
deriving DecidableEq, Repr

def emptyDisk : FileLayoutState := ⟨[], []⟩

/-! ## Session Manager (`src/agent/session-manager.ts`) -/

structure SessionManagerState where
  sessions : List (String × AgentSession)
  persisted : List (String × AgentSession)
deriving DecidableEq, Repr

/-- Model of `updateSession(session)`: optimistic concurrency.  A version mismatch (or
unknown id) throws before any mutation, so the error cases return the state
unchanged; on success the version is bumped, `updatedAt` stamped, and the new
record is both published in memory and persisted. -/
def updateSession (st : SessionManagerState) (now : Nat) (session : AgentSession) :
    Except String Unit × SessionManagerState :=
  match assocGet st.sessions session.id with
  | none => (.error "Session not found", st)
  | some existing =>
    if existing.version ≠ session.version then
      (.error "Session version mismatch (optimistic lock failed)", st)
    else
      let s' := { session with version := session.version + 1, updatedAt := now }
      (.ok (), { st with
        sessions := assocSet st.sessions session.id s',
        persisted := assocSet st.persisted session.id s' })

/-- The `lastK` ring-buffer push of `addMessage`: append, then drop the oldest
when over capacity. -/
def pushLastK (lastK : List TurnMessage) (message : TurnMessage) : List TurnMessage :=
  let l := lastK ++ [message]
  if DEFAULTS.memory.lastK < l.length then l.tail else l

/-- Model of `addMessage(sessionId, message, meta)`. -/
def addMessage (st : SessionManagerState) (now : Nat) (sessionId : String)
    (message : TurnMessage) (meta : TurnMessageMeta) :
    Except String Unit × SessionManagerState :=
  match assocGet st.sessions sessionId with
  | none => (.error "Session not found", st)
  | some session =>
    let session' := { session with
      memory := { session.memory with lastK := pushLastK session.memory.lastK message },
      messages := session.messages ++ [meta],
      stats := { session.stats with lastActivityAt := now } }
    updateSession st now session'

/-! ### C2 : optimistic-concurrency contract of `updateSession` -/

/-- C2: a successful `updateSession` bumps the stored version by exactly 1 and
stamps `updatedAt`, publishing the same record in memory and on disk; a call
whose argument carries a version different from the manager's current version
fails with the concurrency-conflict error and changes neither the in-memory
table nor the persisted records. -/
theorem updateSession_optimistic_concurrency (st : SessionManagerState) (now : Nat)
    (session existing : AgentSession)
    (hget : assocGet st.sessions session.id = some existing) :
    (existing.version = session.version →
      (updateSession st now session).1 = .ok () ∧
      assocGet (updateSession st now session).2.sessions session.id =
        some { session with version := existing.version + 1, updatedAt := now } ∧
      assocGet (updateSession st now session).2.persisted session.id =
        some { session with version := existing.version + 1, updatedAt := now }) ∧
    (existing.version ≠ session.version →
      (updateSession st now session).1 =
        .error "Session version mismatch (optimistic lock failed)" ∧
      (updateSession st now session).2 = st) := by
  constructor
  · intro hv
    unfold updateSession
    simp only [hget]
    rw [if_neg (show ¬ existing.version ≠ session.version by simp [hv])]
    refine ⟨rfl, ?_, ?_⟩
    · rw [← hv]
      exact assocGet_set_self st.sessions session.id _
    · rw [← hv]
      exact assocGet_set_self st.persisted session.id _
  · intro hv
    unfold updateSession
    simp only [hget]
    rw [if_pos hv]
    exact ⟨rfl, rfl⟩

def demoSession : AgentSession :=
  { id := "S1", createdAt := 0, updatedAt := 0, status := .active,
    memory := { rollingSummary := "", facts := [], pins := [], lastK := [] },
    messages := [], openContinuations := [],
    stats := { totalContinuations := 0, totalSteps := 0, totalTokensEstimate := 0,
               totalToolCalls := 0, lastActivityAt := 0 },
    version := 3 }

def demoStale : AgentSession := { demoSession with version := 2 }

def demoMgr : SessionManagerState :=
  { sessions := [("S1", demoSession)], persisted := [("S1", demoSession)] }

/-- C2 witness: the contract applied at a concrete manager state holding one
session at version 3: the matching update succeeds and stores version 4; the
stale (version 2) update fails and leaves the state untouched. -/
theorem updateSession_optimistic_concurrency_witness :
    ((updateSession demoMgr 10 demoSession).1 = .ok () ∧
      assocGet (updateSession demoMgr 10 demoSession).2.sessions "S1" =
        some { demoSession with version := 4, updatedAt := 10 }) ∧
    ((updateSession demoMgr 10 demoStale).1 =
        .error "Session version mismatch (optimistic lock failed)" ∧
      (updateSession demoMgr 10 demoStale).2 = demoMgr) := by
  have h1 := (updateSession_optimistic_concurrency demoMgr 10 demoSession demoSession
    (by decide)).1 rfl
  have h2 := (updateSession_optimistic_concurrency demoMgr 10 demoStale demoSession
    (by decide)).2 (by decide)
  exact ⟨⟨h1.1, h1.2.1⟩, ⟨h2.1, h2.2⟩⟩

/-! ### C8 : `lastK` is a capacity-6 ring buffer -/

theorem pushLastK_length (l : List TurnMessage) (m : TurnMessage) (h : l.length ≤ 6) :
    (pushLastK l m).length ≤ 6 := by
  unfold pushLastK DEFAULTS
  by_cases hlen : 6 < (l ++ [m]).length
  · simp only [hlen, if_pos, reduceIte]
    simp at hlen ⊢
    omega
  · simp only [hlen, if_neg, reduceIte]
    simp at hlen ⊢
    omega

theorem foldl_pushLastK (ms : List TurnMessage) (l : List TurnMessage)
    (hl : l.length ≤ 6) :
    ms.foldl pushLastK l = (l ++ ms).drop (l.length + ms.length - 6) := by
  induction ms generalizing l with
  | nil => simp [Nat.sub_eq_zero_of_le hl]
  | cons m ms ih =>
    have hlentail : l.tail.length = l.length - 1 := List.length_tail l
    simp only [List.foldl_cons, List.length_cons]
    by_cases hfull : l.length = 6
    · have hne : l ≠ [] := by intro hc; rw [hc] at hfull; simp at hfull
      obtain ⟨a, l', rfl⟩ : ∃ a l', l = a :: l' := by
        cases l with
        | nil => exact absurd rfl hne
        | cons a l' => exact ⟨a, l', rfl⟩
      have hl5 : l'.length = 5 := by simp at hfull; omega
      have hpush : pushLastK (a :: l') m = l' ++ [m] := by
        simp only [pushLastK, DEFAULTS]
        rw [if_pos (show 6 < ((a :: l') ++ [m]).length by
          simp only [List.length_append, List.length_cons, List.length_singleton]
          omega)]
        simp
      rw [hpush, ih _ (by
        simp only [List.length_append, List.length_singleton]; omega)]
      have htail : l' ++ [m] ++ ms = ((a :: l') ++ m :: ms).tail := by simp
      rw [htail, List.drop_tail]
      congr 1
      simp only [List.length_append, List.length_singleton, List.length_cons,
        List.length_nil]
      omega
    · have hpush : pushLastK l m = l ++ [m] := by
        simp only [pushLastK, DEFAULTS]
        rw [if_neg (show ¬ 6 < (l ++ [m]).length by
          simp only [List.length_append, List.length_singleton]; omega)]
      rw [hpush, ih _ (by simp only [List.length_append, List.length_singleton]; omega)]
      have happ : l ++ [m] ++ ms = l ++ m :: ms := by simp
      rw [happ]
      congr 1
      simp only [List.length_append, List.length_singleton]
      omega

/-- Fold `addMessage` over a list of (message, meta) pairs, threading the
manager state (`sendMessage → awaitContinuation` call sites do this one at a
time). -/
def runAddMessages (st : SessionManagerState) (sessionId : String)
    (ps : List (TurnMessage × TurnMessageMeta)) (now : Nat) : SessionManagerState :=
  ps.foldl (fun acc p => (addMessage acc now sessionId p.1 p.2).2) st

theorem runAddMessages_lastK (ps : List (TurnMessage × TurnMessageMeta))
    (st : SessionManagerState) (sid : String) (s : AgentSession) (now : Nat)
    (hget : assocGet st.sessions sid = some s) (hid : s.id = sid)
    (hlen : s.memory.lastK.length ≤ 6) :
    ∃ s', assocGet (runAddMessages st sid ps now).sessions sid = some s' ∧
      s'.id = sid ∧
      s'.memory.lastK = (ps.map Prod.fst).foldl pushLastK s.memory.lastK ∧
      s'.memory.lastK.length ≤ 6 := by
  induction ps generalizing st s with
  | nil => exact ⟨s, hget, hid, by simp, hlen⟩
  | cons p ps ih =>
    have hstep : (addMessage st now sid p.1 p.2).2.sessions =
        assocSet st.sessions sid
          { s with
            memory := { s.memory with lastK := pushLastK s.memory.lastK p.1 },
            messages := s.messages ++ [p.2],
            stats := { s.stats with lastActivityAt := now },
            version := s.version + 1, updatedAt := now } ∧
        (addMessage st now sid p.1 p.2).2.persisted =
        assocSet st.persisted sid
          { s with
            memory := { s.memory with lastK := pushLastK s.memory.lastK p.1 },
            messages := s.messages ++ [p.2],
            stats := { s.stats with lastActivityAt := now },
            version := s.version + 1, updatedAt := now } := by
      unfold addMessage
      simp only [hget]
      unfold updateSession
      rw [hid]
      simp only [hget]
      rw [if_neg (by simp)]
      exact ⟨rfl, rfl⟩
    have hrun : runAddMessages st sid (p :: ps) now =
        runAddMessages (addMessage st now sid p.1 p.2).2 sid ps now := rfl
    rw [hrun]
    have hget' : assocGet (addMessage st now sid p.1 p.2).2.sessions sid =
        some { s with
          memory := { s.memory with lastK := pushLastK s.memory.lastK p.1 },
          messages := s.messages ++ [p.2],
          stats := { s.stats with lastActivityAt := now },
          version := s.version + 1, updatedAt := now } := by
      rw [hstep.1]
      exact assocGet_set_self _ _ _
    obtain ⟨s', hg, hi, hk, hl⟩ := ih (addMessage st now sid p.1 p.2).2 _ hget' hid
      (pushLastK_length _ _ hlen)
    exact ⟨s', hg, hi, by simpa using hk, hl⟩

/-- C8: starting from a session whose `lastK` is empty, after `n` successful
`addMessage` calls the buffer holds exactly `min n 6` messages — the most
recently added ones, oldest first evicted, in chronological order. -/
theorem addMessage_ring_buffer (ps : List (TurnMessage × TurnMessageMeta))
    (st : SessionManagerState) (sid : String) (s : AgentSession) (now : Nat)
    (hget : assocGet st.sessions sid = some s) (hid : s.id = sid)
    (hempty : s.memory.lastK = []) :
    ∃ s', assocGet (runAddMessages st sid ps now).sessions sid = some s' ∧
      s'.memory.lastK = (ps.map Prod.fst).drop (ps.length - 6) ∧
      s'.memory.lastK.length = min ps.length 6 := by
  obtain ⟨s', hg, _, hk, _⟩ := runAddMessages_lastK ps st sid s now hget hid
    (by rw [hempty]; simp)
  refine ⟨s', hg, ?_, ?_⟩
  · rw [hk, hempty, foldl_pushLastK _ _ (by simp)]
    simp
  · rw [hk, hempty, foldl_pushLastK _ _ (by simp)]
    simp
    omega

def demoMsg (n : Nat) : TurnMessage :=
  { role := .user, content := "", timestamp := n, continuationId := none }

def demoMeta (n : Nat) : TurnMessageMeta :=
  { continuationId := "C", timestamp := n, preview := "" }

def demoPairs : List (TurnMessage × TurnMessageMeta) :=
  (List.range 8).map (fun n => (demoMsg n, demoMeta n))

/-- C8 witness: 8 messages pushed into the demo session; the buffer holds the
last 6 (messages 2..7) and has length 6 = min 8 6. -/
theorem addMessage_ring_buffer_witness :
    ∃ s', assocGet (runAddMessages demoMgr "S1" demoPairs 10).sessions "S1" = some s' ∧
      s'.memory.lastK = (demoPairs.map Prod.fst).drop (demoPairs.length - 6) ∧
      s'.memory.lastK.length = min demoPairs.length 6 :=
  addMessage_ring_buffer demoPairs demoMgr "S1" demoSession 10
    (by decide) rfl rfl

/-! ## Startup recovery (`SessionManager.init` / `loadExistingSessions`)

`init()` enumerates persisted sessions and loads them into memory; for a
session with a non-empty open-continuation set it (re)sets the status to
`active`.  No continuation record is touched — the comment in the source
defers that to the ContinuationRunner, which has no startup sweep. -/

def loadExistingSessions (disk : FileLayoutState) : SessionManagerState :=
  { sessions := disk.sessions.map (fun p =>
      (p.1, if p.2.openContinuations ≠ [] then { p.2 with status := .active } else p.2)),
    persisted := disk.sessions }

/-! ## Continuation Runner (`src/agent/continuation-runner.ts`)

The runner's two in-memory maps plus the persisted continuation records.
`execute` is split at its `await` suspension points into `execStart` (its
prefix up to persisting the `running` transition) and `execFinish` (its
completion suffix); `cancel` may interleave between them.  The shared mutable
`Continuation` object is modelled by reading the current record from the
`activeContinuations` map at each step. -/

structure ContinuationRunnerState where
  activeContinuations : List (String × Continuation)
  abortControllers : List (String × Bool)
deriving DecidableEq, Repr

def emptyRunner : ContinuationRunnerState := ⟨[], []⟩

/-- The runner constructed at process startup: fresh empty maps, no recovery
sweep over persisted continuations exists in the source. -/
def startupRecovery (disk : FileLayoutState) :
    SessionManagerState × ContinuationRunnerState :=
  (loadExistingSessions disk, emptyRunner)

/-- Model of `getContinuation`: check the in-memory map first, then disk. -/
def getContinuation (rs : ContinuationRunnerState) (disk : FileLayoutState)
    (sessionId continuationId : String) : Option Continuation :=
  match assocGet rs.activeContinuations continuationId with
  | some c => some c
  | none => assocGet disk.continuations (sessionId, continuationId)

/-- Model of `createContinuation(session, request)`: allocate, set `pending`, store in
memory and persist immediately.  There is no open-set or concurrency-cap
check and no error path. -/
def createContinuation (rs : ContinuationRunnerState) (disk : FileLayoutState)
    (session : AgentSession) (request : ContinuationRequest)
    (continuationId : String) (now : Nat) :
    Continuation × ContinuationRunnerState × FileLayoutState :=
  let c : Continuation :=
    { id := continuationId, sessionId := session.id, status := .pending,
      createdAt := now, updatedAt := now, request := request,
      response := none, stepLog := [], error := none }
  (c,
   { rs with activeContinuations := assocSet rs.activeContinuations continuationId c },
   { disk with continuations :=
                assocSet disk.continuations (session.id, continuationId) c })

/-- Prefix of `execute`: register the abort controller, transition the
continuation to `running`, persist. -/
def execStart (rs : ContinuationRunnerState) (disk : FileLayoutState)
    (sessionId continuationId : String) (now : Nat) :
    ContinuationRunnerState × FileLayoutState :=
  match assocGet rs.activeContinuations continuationId with
  | none => (rs, disk)
  | some c =>
    let c' := { c with status := .running, updatedAt := now }
    ({ activeContinuations := assocSet rs.activeContinuations continuationId c',
       abortControllers := assocSet rs.abortControllers continuationId false },
     { disk with continuations :=
                  assocSet disk.continuations (sessionId, continuationId) c' })

/-- Completion suffix of `execute`: record the response, set `completed`
(unconditionally — the current status is not re-checked), persist, then the
`finally` block drops both map entries. -/
def execFinish (rs : ContinuationRunnerState) (disk : FileLayoutState)
    (sessionId continuationId : String) (response : ContinuationResponse)
    (now : Nat) : ContinuationRunnerState × FileLayoutState :=
  match assocGet rs.activeContinuations continuationId with
  | none => (rs, disk)
  | some c =>
    let c' := { c with
                response := some response, status := .completed, updatedAt := now }
    ({ activeContinuations := assocDel rs.activeContinuations continuationId,
       abortControllers := assocDel rs.abortControllers continuationId },
     { disk with continuations :=
                  assocSet disk.continuations (sessionId, continuationId) c' })

/-- Model of `cancel(continuationId, reason)`: a no-op returning `false` when no abort
controller is tracked; otherwise aborts the signal, sets `cancelled` with a
CANCELLED error, persists, and returns `true`. -/
def cancelOp (rs : ContinuationRunnerState) (disk : FileLayoutState)
    (continuationId : String) (reason : Option String) (now : Nat) :
    Bool × ContinuationRunnerState × FileLayoutState :=
  match assocGet rs.abortControllers continuationId with
  | none => (false, rs, disk)
  | some _ =>
    let rs1 := { rs with
      abortControllers := assocSet rs.abortControllers continuationId true }
    match assocGet rs1.activeContinuations continuationId with
    | none => (true, rs1, disk)
    | some c =>
      let c' := { c with
                  status := .cancelled,
                  error := some { code := "CANCELLED",
                                  message := reason.getD "Continuation cancelled by user",
                                  recoverable := false },
                  updatedAt := now }
      (true,
       { rs1 with activeContinuations :=
          assocSet rs1.activeContinuations continuationId c' },
       { disk with continuations :=
                    assocSet disk.continuations (c.sessionId, continuationId) c' })

/-! ### C3 : the startup sweep never reclassifies non-terminal continuations -/

def demoRequest : ContinuationRequest :=
  { message := "ping", allowTools := true, maxSteps := 8,
    timeBudgetMs := 120000, idempotencyKey := none }

def demoRunningCont : Continuation :=
  { id := "C1", sessionId := "S1", status := .running, createdAt := 1,
    updatedAt := 2, request := demoRequest, response := none,
    stepLog := [], error := none }

def demoSessionOpen : AgentSession := { demoSession with openContinuations := ["C1"] }

def demoCrashDisk : FileLayoutState :=
  { sessions := [("S1", demoSessionOpen)],
    continuations := [(("S1", "C1"), demoRunningCont)] }

/-- C3 (code evaluated at the failing input): a continuation persisted with
status `running` before a crash is still read back as `running` — not
`interrupted` — after the complete startup sequence (`SessionManager.init`'s
`loadExistingSessions` plus a freshly constructed runner), and the persisted
record is unchanged; the source contains no recovery sweep that reclassifies
it. -/
theorem startup_leaves_running_continuation :
    getContinuation (startupRecovery demoCrashDisk).2 demoCrashDisk "S1" "C1" =
      some demoRunningCont ∧
    demoRunningCont.status = .running ∧
    ContinuationStatus.running ≠ ContinuationStatus.interrupted ∧
    assocGet (startupRecovery demoCrashDisk).1.sessions "S1" =
      some { demoSessionOpen with status := .active } := by
  refine ⟨by decide, rfl, by decide, by decide⟩

/-! ### C1 : a cancelled continuation is later overwritten by `execute` -/

def c1Response : ContinuationResponse :=
  { finalMessage := "done", reasoningSummary := none, followUps := [] }

def c1AfterCreate : Continuation × ContinuationRunnerState × FileLayoutState :=
  createContinuation emptyRunner emptyDisk demoSession demoRequest "C1" 1

def c1AfterStart : ContinuationRunnerState × FileLayoutState :=
  execStart c1AfterCreate.2.1 c1AfterCreate.2.2 "S1" "C1" 2

def c1AfterCancel : Bool × ContinuationRunnerState × FileLayoutState :=
  cancelOp c1AfterStart.1 c1AfterStart.2 "C1" none 3

def c1AfterFinish : ContinuationRunnerState × FileLayoutState :=
  execFinish c1AfterCancel.2.1 c1AfterCancel.2.2 "S1" "C1" c1Response 4

/-- C1 (code evaluated at the failing input): create + execute-start a
continuation, cancel it (observed status `cancelled`, persisted), then let
the still-running `execute` complete: both the in-memory read path and the
persisted record now say `completed` — the observed terminal status
`cancelled` was overwritten. -/
theorem continuation_cancel_overwritten_by_execute :
    c1AfterCancel.1 = true ∧
    (getContinuation c1AfterCancel.2.1 c1AfterCancel.2.2 "S1" "C1").map
      (fun c => c.status) = some .cancelled ∧
    (getContinuation c1AfterFinish.1 c1AfterFinish.2 "S1" "C1").map
      (fun c => c.status) = some .completed ∧
    (assocGet c1AfterFinish.2.continuations ("S1", "C1")).map
      (fun c => c.status) = some .completed ∧
    ContinuationStatus.cancelled ≠ ContinuationStatus.completed := by
  refine ⟨by decide, by decide, by decide, by decide, by decide⟩

/-! ### C7 : the single-flight cap is never enforced -/

/-- C7 (code evaluated at the failing input): with the default concurrency cap
of 1 and a session whose open-continuation set is non-empty,
`createContinuation` still succeeds — it returns a fresh `pending`
continuation, stores it in the in-memory map, and persists it.  The function
has no error path and never consults `openContinuations` or
`DEFAULTS.concurrency`. -/
theorem createContinuation_ignores_single_flight_cap :
    DEFAULTS.concurrency.maxOpenContinuationsPerSession = 1 ∧
    demoSessionOpen.openContinuations = ["C1"] ∧
    (createContinuation emptyRunner emptyDisk demoSessionOpen demoRequest "C2" 5).1.status
      = .pending ∧
    assocGet (createContinuation emptyRunner emptyDisk demoSessionOpen demoRequest
      "C2" 5).2.1.activeContinuations "C2" ≠ none ∧
    assocGet (createContinuation emptyRunner emptyDisk demoSessionOpen demoRequest
      "C2" 5).2.2.continuations ("S1", "C2") ≠ none := by
  refine ⟨rfl, rfl, rfl, by decide, by decide⟩

/-! ## Tool Registry (`src/agent/tool-registry.ts`)

`invoke(name, args, ctx)`: tools live in a name-keyed map; the tool body is
an opaque fallible function; `ctx.logger` appends step-log entries, modelled
by returning the list of entries appended during the call.  Arguments and
results are abstracted to `Nat` (the registry never inspects them). -/

inductive RiskLevel where
  | safe
  | low
  | medium
  | high
deriving DecidableEq, Repr

structure ToolSafety where
  requiresActuation : Bool
  riskLevel : RiskLevel
deriving DecidableEq, Repr

structure ToolSpec where
  name : String
  body : Nat → Except String Nat
  safety : Option ToolSafety

/-- Optional chaining `tool.safety?.requiresActuation` (optional chaining: absent safety means
no actuation requirement). -/
def requiresActuation (tool : ToolSpec) : Bool :=
  (tool.safety.map (fun s => s.requiresActuation)).getD false

/-- Model of `register(tool)`: no silent overwrite. -/
def register (reg : List (String × ToolSpec)) (tool : ToolSpec) :
    Except String (List (String × ToolSpec)) :=
  if (assocGet reg tool.name).isSome then .error "Tool is already registered"
  else .ok (assocSet reg tool.name tool)

/-- Model of `invoke(name, args, ctx)`; the second component is the list of entries
appended through `ctx.logger` during the call. -/
def invoke (reg : List (String × ToolSpec)) (name : String) (args : Nat)
    (allowActuation : Bool) (now : Nat) : Except String Nat × List StepLogEntry :=
  match assocGet reg name with
  | none => (.error "Tool not found", [])
  | some tool =>
    if requiresActuation tool && !allowActuation then
      (.error "Tool requires actuation but session policy disallows it", [])
    else
      let callEntry : StepLogEntry := ⟨now, .tool_call, name.toList⟩
      match tool.body args with
      | .ok result => (.ok result, [callEntry, ⟨now, .tool_result, name.toList⟩])
      | .error msg => (.error msg, [callEntry, ⟨now, .error, msg.toList⟩])

/-! ### C4 : which invocations reach the step log -/

def demoActTool : ToolSpec :=
  { name := "act", body := fun n => .ok n,
    safety := some { requiresActuation := true, riskLevel := .high } }

/-- C4 counterexample: the claim as stated is false.  An unknown-tool
invocation (empty registry) and a policy-denied invocation both fail before
any `ctx.logger` call: zero step-log entries are appended, so "at least one
entry per attempt" does not hold. -/
theorem invoke_unlogged_attempts_counterexample :
    (invoke [] "foo" 0 true 0).1 = .error "Tool not found" ∧
    (invoke [] "foo" 0 true 0).2 = [] ∧
    ¬ 1 ≤ (invoke [] "foo" 0 true 0).2.length ∧
    (invoke [("act", demoActTool)] "act" 0 false 0).1 =
      .error "Tool requires actuation but session policy disallows it" ∧
    (invoke [("act", demoActTool)] "act" 0 false 0).2 = [] := by
  refine ⟨rfl, rfl, by decide, rfl, rfl⟩

/-- C4 (amended): `invoke` appends step-log entries exactly for invocations
that pass the existence and actuation-policy checks: those append a
`tool_call` entry before the body runs and then a `tool_result` entry on
success or an `error` entry when the body raises; unknown-tool and
policy-denied invocations fail before any logging and append nothing. -/
theorem invoke_logging_contract (reg : List (String × ToolSpec)) (name : String)
    (args : Nat) (allowActuation : Bool) (now : Nat) :
    (assocGet reg name = none → (invoke reg name args allowActuation now).2 = []) ∧
    (∀ tool, assocGet reg name = some tool →
      (requiresActuation tool && !allowActuation) = true →
      (invoke reg name args allowActuation now).2 = []) ∧
    (∀ tool, assocGet reg name = some tool →
      (requiresActuation tool && !allowActuation) = false →
      (invoke reg name args allowActuation now).2.length = 2 ∧
      (invoke reg name args allowActuation now).2.map (fun e => e.type) =
        [.tool_call,
         match tool.body args with
         | .ok _ => .tool_result
         | .error _ => .error]) := by
  refine ⟨?_, ?_, ?_⟩
  · intro h
    unfold invoke
    simp only [h]
  · intro tool hget hdeny
    unfold invoke
    simp only [hget, hdeny, if_pos, reduceIte]
  · intro tool hget hallow
    unfold invoke
    simp only [hget, hallow, Bool.false_eq_true, if_false, reduceIte]
    cases tool.body args <;> simp

def demoEchoTool : ToolSpec :=
  { name := "echo", body := fun n => .ok n, safety := none }

def demoToolReg : List (String × ToolSpec) := [("echo", demoEchoTool)]

/-- C4 witness: the amended contract applied at a concrete registry with a
known, policy-allowed tool: exactly two entries, a `tool_call` then a
`tool_result`. -/
theorem invoke_logging_contract_witness :
    (invoke demoToolReg "echo" 4 true 9).2.length = 2 ∧
    (invoke demoToolReg "echo" 4 true 9).2.map (fun e => e.type) =
      [.tool_call, .tool_result] := by
  have h := (invoke_logging_contract demoToolReg "echo" 4 true 9).2.2 demoEchoTool rfl rfl
  exact ⟨h.1, h.2.trans (by rfl)⟩


/-! ## Artifact Store (`src/agent/artifact-store.ts`)

Files on disk are `(id, {sizeBytes, ctimeMs})`; content is abstracted to its
byte length (the store never inspects bytes beyond length).  The size check
`content.length / 1MB > maxSizeMB` is the integer-exact
`maxSizeMB * 1MB < length`. -/

inductive ArtifactType where
  | json
  | text
  | image
  | plot
  | log
deriving DecidableEq, Repr

structure ArtifactRef where
  id : String
  type : ArtifactType
  path : String
  sizeBytes : Nat
  createdAt : Nat
deriving DecidableEq, Repr

structure ArtifactFile where
  sizeBytes : Nat
  ctimeMs : Nat
deriving DecidableEq, Repr

structure ArtifactStoreState where
  maxSizeMB : Nat
  files : List (String × ArtifactFile)
deriving DecidableEq, Repr

/-- Model of `write(type, content, metadata)`: size check, then write-once; returns a
reference carrying the caller's type. -/
def artifactWrite (store : ArtifactStoreState) (artifactId : String)
    (type : ArtifactType) (contentLength now : Nat) :
    Except String (ArtifactRef × ArtifactStoreState) :=
  if store.maxSizeMB * 1048576 < contentLength then
    .error "Artifact size exceeds limit"
  else
    .ok ({ id := artifactId, type := type, path := artifactId,
           sizeBytes := contentLength, createdAt := now },
      { store with files := assocSet store.files artifactId ⟨contentLength, now⟩ })

structure ArtifactFilters where
  type : Option ArtifactType
  minSize : Option Nat
  maxSize : Option Nat
deriving DecidableEq, Repr

/-- Model of `list(filters)`: rebuilds references from the directory listing with the
type hard-coded to `text` ("Would need metadata file to track type"), then
applies the type and size-bound filters. -/
def artifactList (store : ArtifactStoreState) (filters : Option ArtifactFilters) :
    List ArtifactRef :=
  let refs := store.files.map (fun p =>
    { id := p.1, type := ArtifactType.text, path := p.1,
      sizeBytes := p.2.sizeBytes, createdAt := p.2.ctimeMs })
  match filters with
  | none => refs
  | some fl =>
    refs.filter (fun r =>
      (match fl.type with | some t => r.type == t | none => true) &&
      (match fl.minSize with | some m => decide (m ≤ r.sizeBytes) | none => true) &&
      (match fl.maxSize with | some m => decide (r.sizeBytes ≤ m) | none => true))

/-! ### C9 : type filtering against the hard-coded `text` type -/

def demoStore : ArtifactStoreState := { maxSizeMB := 100, files := [] }

def demoStore1 : ArtifactStoreState :=
  { maxSizeMB := 100, files := [("A1", { sizeBytes := 3, ctimeMs := 7 })] }

/-- C9 counterexample: the claim as stated is false.  An artifact written
with type `json` is listed with the hard-coded type `text`: the filter
`{type: json}` (the written type) excludes it, and the filter `{type: text}`
(a different type) includes it. -/
theorem artifact_type_filter_counterexample :
    artifactWrite demoStore "A1" .json 3 7 =
      .ok ({ id := "A1", type := .json, path := "A1", sizeBytes := 3, createdAt := 7 },
        demoStore1) ∧
    (artifactList demoStore1 (some { type := some .json, minSize := none, maxSize := none })).map (fun r => r.id) = [] ∧
    (artifactList demoStore1 (some { type := some .text, minSize := none, maxSize := none })).map (fun r => r.id) = ["A1"] := by
  refine ⟨rfl, by decide, by decide⟩

theorem assocSet_key_mem {α β : Type} [DecidableEq α] (l : List (α × β)) (k : α)
    (v : β) : k ∈ (assocSet l k v).map (fun p => p.1) := by
  induction l with
  | nil => simp [assocSet]
  | cons hd tl ih =>
    cases hd with
    | mk k' v' =>
      by_cases h : k' = k
      · simp [assocSet, h]
      · simp only [assocSet, if_neg h, List.map_cons, List.mem_cons]
        exact Or.inr ih

/-- C9 (amended): every reference returned by `list` carries the hard-coded
type `text` regardless of the type passed to `write` (which is returned on
the write-time reference but not persisted).  Hence after a successful write
of any type, a `list` call filtered by `{type: text}` includes the artifact's
id, and a filter for any other type — including the written type when it is
not `text` — returns no references at all. -/
theorem artifactList_type_filter_amended (store : ArtifactStoreState)
    (artifactId : String) (type : ArtifactType) (contentLength now : Nat)
    (ref : ArtifactRef) (store1 : ArtifactStoreState)
    (hw : artifactWrite store artifactId type contentLength now = .ok (ref, store1)) :
    ref.type = type ∧
    artifactId ∈ (artifactList store1 (some { type := some .text, minSize := none, maxSize := none })).map (fun r => r.id) ∧
    (∀ t, t ≠ ArtifactType.text →
      artifactList store1 (some { type := some t, minSize := none, maxSize := none }) = []) := by
  unfold artifactWrite at hw
  by_cases hsz : store.maxSizeMB * 1048576 < contentLength
  · rw [if_pos hsz] at hw
    exact absurd hw (by simp)
  · rw [if_neg hsz] at hw
    simp only [Except.ok.injEq, Prod.mk.injEq] at hw
    obtain ⟨href, hstore⟩ := hw
    have hfilterall : ∀ (t : ArtifactType) (st : ArtifactStoreState),
        artifactList st (some { type := some t, minSize := none, maxSize := none }) =
          (st.files.map (fun p =>
            ({ id := p.1, type := ArtifactType.text, path := p.1,
               sizeBytes := p.2.sizeBytes, createdAt := p.2.ctimeMs } : ArtifactRef))).filter
            (fun r => r.type == t) := by
      intro t st
      unfold artifactList
      simp
    refine ⟨by rw [← href], ?_, ?_⟩
    · rw [hfilterall]
      have hkeep : ((store1.files.map (fun p =>
          ({ id := p.1, type := ArtifactType.text, path := p.1,
             sizeBytes := p.2.sizeBytes, createdAt := p.2.ctimeMs } : ArtifactRef))).filter
          (fun r => r.type == ArtifactType.text)) =
          store1.files.map (fun p =>
          ({ id := p.1, type := ArtifactType.text, path := p.1,
             sizeBytes := p.2.sizeBytes, createdAt := p.2.ctimeMs } : ArtifactRef)) := by
        rw [List.filter_eq_self]
        intro r hr
        obtain ⟨p, _, hp⟩ := List.mem_map.mp hr
        rw [← hp]
        simp
      rw [hkeep, List.map_map]
      rw [← hstore]
      have := assocSet_key_mem store.files artifactId
        (⟨contentLength, now⟩ : ArtifactFile)
      simpa using this
    · intro t ht
      rw [hfilterall]
      rw [List.filter_eq_nil_iff]
      intro r hr
      obtain ⟨p, _, hp⟩ := List.mem_map.mp hr
      rw [← hp]
      simpa using (Ne.symm ht)

/-- C9 witness: the amended statement applied at the concrete store: a `json`
write is visible under `{type: text}` and invisible under `{type: json}`. -/
theorem artifactList_type_filter_amended_witness :
    "A1" ∈ (artifactList demoStore1 (some { type := some .text, minSize := none, maxSize := none })).map (fun r => r.id) ∧
    artifactList demoStore1 (some { type := some .json, minSize := none, maxSize := none }) = [] := by
  have h := artifactList_type_filter_amended demoStore "A1" .json 3 7
    { id := "A1", type := .json, path := "A1", sizeBytes := 3, createdAt := 7 }
    demoStore1 rfl
  exact ⟨h.2.1, h.2.2 .json (by decide)⟩

end HaMcp
